import Mathlib

/-!
Verification of the chunk-tree byte buffer (src/src/chunk_tree.rs).

The Rust `ChunkTree<'a, N>` is shallowly embedded: leaf byte slices become
`List Nat`, `usize` becomes `Nat` (Rust's `saturating_sub` is Lean's truncated
subtraction, and `Range::len` on `usize` is `end - start`, which is `0` for an
inverted range, again truncated subtraction), `Arc` sharing disappears (pure
values), and panics / failed `assert!`s become `Option.none`.  The const
generic `N` is passed explicitly together with a proof `0 < N`: `new` asserts
`N > 0` in the source, and `from_slice` does not terminate for `N = 0` on
non-empty input, so the positivity witness is a genuine precondition of the
Rust code, not an artefact of the embedding.
-/

inductive ChunkTree : Type where
  | Leaf (data : List Nat) : ChunkTree
  | Internal (left mid right : ChunkTree) (size : Nat) : ChunkTree
deriving DecidableEq, Repr

namespace ChunkTree

/-- Rust `from_slice` (chunk_tree.rs lines 22-38): byte runs of length `≤ N`
become a `Leaf`; longer input is split at `len / 2` into recursively built
`left` and `right` halves, with an empty `Leaf` as `mid` and the cached
`size` set to the input length. -/
def from_slice (N : Nat) (hN : 0 < N) (data : List Nat) : ChunkTree :=
  if _h : data.length ≤ N then
    .Leaf data
  else
    .Internal (from_slice N hN (data.take (data.length / 2)))
      (.Leaf [])
      (from_slice N hN (data.drop (data.length / 2)))
      data.length
termination_by data.length
decreasing_by
  · simp only [List.length_take]
    omega
  · simp only [List.length_drop]
    omega

/-- Rust `new` (lines 17-20): `assert!(N > 0)` then `from_slice(&[])`. -/
def new (N : Nat) (hN : 0 < N) : ChunkTree :=
  from_slice N hN []

/-- Rust `len` (lines 40-45): slice length for a `Leaf`, the cached `size`
field for an `Internal` node. -/
def len : ChunkTree → Nat
  | .Leaf data => data.length
  | .Internal _ _ _ size => size

/-- Rust `is_empty` (lines 47-52). -/
def is_empty : ChunkTree → Bool
  | .Leaf data => data.isEmpty
  | .Internal _ _ _ size => size == 0

/-- Rust `collect_bytes_into` (lines 178-192): appends the in-order bytes
(left, mid, right) onto the accumulator. -/
def collect_bytes_into : ChunkTree → List Nat → List Nat
  | .Leaf data, output => output ++ data
  | .Internal left mid right _, output =>
      collect_bytes_into right (collect_bytes_into mid (collect_bytes_into left output))

/-- Rust `collect_bytes` (lines 172-176): traversal into an empty buffer. -/
def collect_bytes (t : ChunkTree) : List Nat :=
  collect_bytes_into t []

theorem collect_bytes_into_eq (t : ChunkTree) (output : List Nat) :
    collect_bytes_into t output = output ++ collect_bytes t := by
  induction t generalizing output with
  | Leaf data => simp [collect_bytes_into, collect_bytes]
  | Internal l m r size ihl ihm ihr =>
      simp only [collect_bytes_into, collect_bytes]
      rw [ihl, ihm, ihr, ihm, ihr]
      simp [collect_bytes]

theorem collect_bytes_Leaf (data : List Nat) :
    collect_bytes (.Leaf data) = data := by
  simp [collect_bytes, collect_bytes_into]

theorem collect_bytes_Internal (l m r : ChunkTree) (size : Nat) :
    collect_bytes (.Internal l m r size) = collect_bytes l ++ collect_bytes m ++ collect_bytes r := by
  simp only [collect_bytes, collect_bytes_into]
  rw [collect_bytes_into_eq, collect_bytes_into_eq, collect_bytes_into_eq]
  simp [collect_bytes]

theorem collect_bytes_from_slice (N : Nat) (hN : 0 < N) (data : List Nat) :
    collect_bytes (from_slice N hN data) = data := by
  induction data using from_slice.induct N hN with
  | case1 data h =>
      rw [from_slice]
      simp [h, collect_bytes_Leaf]
  | case2 data h ihl ihr =>
      rw [from_slice]
      simp only [h, dite_false]
      rw [collect_bytes_Internal, ihl, ihr, collect_bytes_Leaf]
      simp

theorem len_from_slice (N : Nat) (hN : 0 < N) (data : List Nat) :
    len (from_slice N hN data) = data.length := by
  rw [from_slice]
  split <;> simp [len]

/-- The cached-size invariant (spec §3): every `Internal` node's `size`
field equals the sum of its three children's lengths. -/
def size_ok : ChunkTree → Bool
  | .Leaf _ => true
  | .Internal l m r size =>
      (size == l.len + m.len + r.len) && size_ok l && size_ok m && size_ok r

/-- Every `Leaf` in the tree holds at most `N` bytes. -/
def leaves_le (N : Nat) : ChunkTree → Bool
  | .Leaf data => data.length ≤ N
  | .Internal l m r _ => leaves_le N l && leaves_le N m && leaves_le N r

/-- Rust `insert` (lines 54-107).  On a `Leaf`, the Rust code slices
`leaf_data[..index]` and `leaf_data[index..]`, which panics exactly when
`index > leaf_data.len()`; panics are modelled as `none`.  On an
`Internal` node the child is picked by successive `≤` tests against
`left.len()`, `left.len() + mid.len()` and the three-way sum, with the
final `else` panicking. -/
def insert (N : Nat) (hN : 0 < N) : ChunkTree → Nat → List Nat → Option ChunkTree
  | .Leaf leaf_data, index, data =>
      if index ≤ leaf_data.length then
        some (.Internal (from_slice N hN (leaf_data.take index))
          (from_slice N hN data)
          (from_slice N hN (leaf_data.drop index))
          (leaf_data.length + data.length))
      else
        none
  | .Internal left mid right _, index, data =>
      if index ≤ left.len then
        (insert N hN left index data).map fun new_left =>
          .Internal new_left mid right (new_left.len + mid.len + right.len)
      else if index ≤ left.len + mid.len then
        (insert N hN mid (index - left.len) data).map fun new_mid =>
          .Internal left new_mid right (left.len + new_mid.len + right.len)
      else if index ≤ left.len + mid.len + right.len then
        (insert N hN right (index - left.len - mid.len) data).map fun new_right =>
          .Internal left mid new_right (left.len + mid.len + new_right.len)
      else
        none

/-- A Rust `Range<usize>` as a start/end pair; `Nat` subtraction is the
saturating subtraction `usize` ranges use. -/
def range_len (r : Nat × Nat) : Nat := r.2 - r.1

/-- Rust `range_shift_left` (lines 109-111): `saturating_sub` on both ends. -/
def range_shift_left (r : Nat × Nat) (amount : Nat) : Nat × Nat :=
  (r.1 - amount, r.2 - amount)

/-- Rust `range_cap` (lines 113-115). -/
def range_cap (r : Nat × Nat) (max : Nat) : Nat × Nat :=
  (min r.1 max, min r.2 max)

/-- Rust `remove` (lines 117-170).  On a `Leaf`, slicing `data[..start]` /
`data[end..]` panics exactly when `start > data.len()` or
`end > data.len()`; on an `Internal` node the explicit bounds check panics
under the same condition against the cached size, the `start > size`
early-return clone is kept as written (line 138), and the two `assert!`s
(lines 159-160) are modelled as a guard returning `none` when violated. -/
def remove (N : Nat) (hN : 0 < N) : ChunkTree → Nat × Nat → Option ChunkTree
  | .Leaf data, r =>
      if r.1 ≤ data.length ∧ r.2 ≤ data.length then
        some (.Internal (from_slice N hN (data.take r.1))
          (from_slice N hN [])
          (from_slice N hN (data.drop r.2))
          (data.length - range_len r))
      else
        none
  | .Internal left mid right size, r =>
      if r.1 > size ∨ r.2 > size then
        none
      else if r.1 > size then
        some (.Internal left mid right size)
      else do
        let new_left ← remove N hN left (range_cap r left.len)
        let new_mid ← remove N hN mid
          (range_cap (range_shift_left r left.len) mid.len)
        let new_right ← remove N hN right
          (range_cap (range_shift_left r (left.len + mid.len)) right.len)
        let new_size := new_left.len + new_mid.len + new_right.len
        if size ≥ new_size ∧ size - range_len (range_cap r size) = new_size then
          some (.Internal new_left new_mid new_right new_size)
        else
          none

theorem size_ok_from_slice (N : Nat) (hN : 0 < N) (data : List Nat) :
    size_ok (from_slice N hN data) = true := by
  induction data using from_slice.induct N hN with
  | case1 data h =>
      rw [from_slice]
      simp [h, size_ok]
  | case2 data h ihl ihr =>
      rw [from_slice]
      simp only [h, dite_false, size_ok, Bool.and_eq_true, beq_iff_eq]
      refine ⟨⟨⟨?_, ihl⟩, trivial⟩, ihr⟩
      rw [len_from_slice, len_from_slice]
      simp only [len, List.length_take, List.length_nil, List.length_drop]
      omega

theorem leaves_le_from_slice (N : Nat) (hN : 0 < N) (data : List Nat) :
    leaves_le N (from_slice N hN data) = true := by
  induction data using from_slice.induct N hN with
  | case1 data h =>
      rw [from_slice]
      simp [h, leaves_le]
  | case2 data h ihl ihr =>
      rw [from_slice]
      simp [h, leaves_le, ihl, ihr, hN]

theorem len_eq_collect_length (t : ChunkTree) (h : size_ok t = true) :
    t.len = t.collect_bytes.length := by
  induction t with
  | Leaf data => simp [len, collect_bytes_Leaf]
  | Internal l m r size ihl ihm ihr =>
      simp only [size_ok, Bool.and_eq_true, beq_iff_eq] at h
      obtain ⟨⟨⟨hs, hl⟩, hm⟩, hr⟩ := h
      simp only [len, collect_bytes_Internal, List.length_append]
      rw [hs, ihl hl, ihm hm, ihr hr]

theorem take_min_length (l : List Nat) (n : Nat) : l.take (min n l.length) = l.take n := by
  rcases Nat.le_total n l.length with h | h
  · rw [Nat.min_eq_left h]
  · rw [Nat.min_eq_right h, List.take_length, List.take_of_length_le h]

theorem drop_min_length (l : List Nat) (n : Nat) : l.drop (min n l.length) = l.drop n := by
  rcases Nat.le_total n l.length with h | h
  · rw [Nat.min_eq_left h]
  · rw [Nat.min_eq_right h, List.drop_length, List.drop_eq_nil_of_le h]

theorem take_append3_left (A B C : List Nat) (i : Nat) (h : i ≤ A.length) :
    (A ++ B ++ C).take i = A.take i := by
  rw [List.take_append_eq_append_take, List.take_append_eq_append_take]
  have h1 : i - A.length = 0 := by omega
  have h2 : i - (A ++ B).length = 0 := by simp only [List.length_append]; omega
  rw [h1, h2]
  simp

theorem drop_append3_left (A B C : List Nat) (i : Nat) (h : i ≤ A.length) :
    (A ++ B ++ C).drop i = A.drop i ++ B ++ C := by
  rw [List.drop_append_eq_append_drop, List.drop_append_eq_append_drop]
  have h1 : i - A.length = 0 := by omega
  have h2 : i - (A ++ B).length = 0 := by simp only [List.length_append]; omega
  rw [h1, h2]
  simp

theorem take_append3_mid (A B C : List Nat) (i : Nat) (h1 : A.length ≤ i)
    (h2 : i ≤ A.length + B.length) :
    (A ++ B ++ C).take i = A ++ B.take (i - A.length) := by
  rw [List.take_append_eq_append_take, List.take_append_eq_append_take]
  have h3 : i - (A ++ B).length = 0 := by simp only [List.length_append]; omega
  rw [h3, List.take_of_length_le h1]
  simp

theorem drop_append3_mid (A B C : List Nat) (i : Nat) (h1 : A.length ≤ i)
    (h2 : i ≤ A.length + B.length) :
    (A ++ B ++ C).drop i = B.drop (i - A.length) ++ C := by
  rw [List.drop_append_eq_append_drop, List.drop_append_eq_append_drop]
  have h3 : i - (A ++ B).length = 0 := by simp only [List.length_append]; omega
  rw [h3, List.drop_eq_nil_of_le h1]
  simp

theorem take_append3_right (A B C : List Nat) (i : Nat) (h : A.length + B.length ≤ i) :
    (A ++ B ++ C).take i = A ++ B ++ C.take (i - A.length - B.length) := by
  rw [List.take_append_eq_append_take, List.take_append_eq_append_take]
  have h1 : i - (A ++ B).length = i - A.length - B.length := by
    simp only [List.length_append]
    omega
  rw [h1, List.take_of_length_le (by omega), List.take_of_length_le (by omega)]

theorem drop_append3_right (A B C : List Nat) (i : Nat) (h : A.length + B.length ≤ i) :
    (A ++ B ++ C).drop i = C.drop (i - A.length - B.length) := by
  rw [List.drop_append_eq_append_drop, List.drop_append_eq_append_drop]
  have h1 : i - (A ++ B).length = i - A.length - B.length := by
    simp only [List.length_append]
    omega
  rw [h1, List.drop_eq_nil_of_le (by omega), List.drop_eq_nil_of_le (by omega)]
  simp

theorem splice_append (A B : List Nat) (s e : Nat) (hse : s ≤ e) :
    (A.take s ++ A.drop e) ++ (B.take (s - A.length) ++ B.drop (e - A.length)) =
      (A ++ B).take s ++ (A ++ B).drop e := by
  rw [List.take_append_eq_append_take, List.drop_append_eq_append_drop]
  rcases Nat.le_total s A.length with h | h
  · have h0 : s - A.length = 0 := by omega
    rw [h0]
    simp [List.append_assoc]
  · have he : A.length ≤ e := le_trans h hse
    rw [List.take_of_length_le h, List.drop_eq_nil_of_le he]
    simp [List.append_assoc]

theorem splice_append3 (A B C : List Nat) (s e : Nat) (hse : s ≤ e) :
    (A.take s ++ A.drop e) ++ ((B.take (s - A.length) ++ B.drop (e - A.length)) ++
      (C.take (s - A.length - B.length) ++ C.drop (e - A.length - B.length))) =
    (A ++ B ++ C).take s ++ (A ++ B ++ C).drop e := by
  have h1 := splice_append B C (s - A.length) (e - A.length) (by omega)
  have h2 := splice_append A (B ++ C) s e hse
  rw [h1, h2, ← List.append_assoc]

/-- A successful `insert` splices the new bytes at position `i`, grows the
length by `data.length`, and preserves the size invariant; validity of the
index guarantees success. -/
theorem insert_spec (N : Nat) (hN : 0 < N) (t : ChunkTree) :
    size_ok t = true → ∀ (i : Nat) (d : List Nat), i ≤ t.len →
    ∃ t', insert N hN t i d = some t' ∧
      t'.collect_bytes = t.collect_bytes.take i ++ d ++ t.collect_bytes.drop i ∧
      t'.len = t.len + d.length ∧ size_ok t' = true := by
  induction t with
  | Leaf ld =>
      intro _ i d hi
      simp only [len] at hi
      refine ⟨.Internal (from_slice N hN (ld.take i)) (from_slice N hN d)
        (from_slice N hN (ld.drop i)) (ld.length + d.length), ?_, ?_, ?_, ?_⟩
      · simp [insert, hi]
      · rw [collect_bytes_Internal, collect_bytes_from_slice, collect_bytes_from_slice,
          collect_bytes_from_slice, collect_bytes_Leaf]
      · simp [len]
      · simp only [size_ok, Bool.and_eq_true, beq_iff_eq]
        refine ⟨⟨⟨?_, size_ok_from_slice N hN _⟩, size_ok_from_slice N hN _⟩,
          size_ok_from_slice N hN _⟩
        rw [len_from_slice, len_from_slice, len_from_slice]
        simp only [List.length_take, List.length_drop]
        omega
  | Internal l m rr sz ihl ihm ihr =>
      intro hok i d hi
      simp only [size_ok, Bool.and_eq_true, beq_iff_eq] at hok
      obtain ⟨⟨⟨hs, hl⟩, hm⟩, hr⟩ := hok
      simp only [len] at hi
      have hlc := len_eq_collect_length l hl
      have hmc := len_eq_collect_length m hm
      have hrc := len_eq_collect_length rr hr
      by_cases h1 : i ≤ l.len
      · obtain ⟨nl, el, cl, lenl, okl⟩ := ihl hl i d h1
        refine ⟨.Internal nl m rr (nl.len + m.len + rr.len), ?_, ?_, ?_, ?_⟩
        · simp only [insert]
          rw [if_pos h1, el, Option.map_some']
        · rw [collect_bytes_Internal, collect_bytes_Internal, cl,
            take_append3_left _ _ _ i (by omega), drop_append3_left _ _ _ i (by omega)]
          simp [List.append_assoc]
        · show nl.len + m.len + rr.len = sz + d.length
          omega
        · simp only [size_ok, Bool.and_eq_true, beq_iff_eq]
          exact ⟨⟨⟨trivial, okl⟩, hm⟩, hr⟩
      · by_cases h2 : i ≤ l.len + m.len
        · obtain ⟨nm, em, cm, lenm, okm⟩ := ihm hm (i - l.len) d (by omega)
          refine ⟨.Internal l nm rr (l.len + nm.len + rr.len), ?_, ?_, ?_, ?_⟩
          · simp only [insert]
            rw [if_neg h1, if_pos h2, em, Option.map_some']
          · rw [collect_bytes_Internal, collect_bytes_Internal, cm, hlc,
              take_append3_mid _ _ _ i (by omega) (by omega),
              drop_append3_mid _ _ _ i (by omega) (by omega)]
            simp [List.append_assoc]
          · show l.len + nm.len + rr.len = sz + d.length
            omega
          · simp only [size_ok, Bool.and_eq_true, beq_iff_eq]
            exact ⟨⟨⟨trivial, hl⟩, okm⟩, hr⟩
        · have h3 : i ≤ l.len + m.len + rr.len := by omega
          obtain ⟨nr, er, cr, lenr, okr⟩ := ihr hr (i - l.len - m.len) d (by omega)
          refine ⟨.Internal l m nr (l.len + m.len + nr.len), ?_, ?_, ?_, ?_⟩
          · simp only [insert]
            rw [if_neg h1, if_neg h2, if_pos h3, er, Option.map_some']
          · rw [collect_bytes_Internal, collect_bytes_Internal, cr, hlc, hmc,
              take_append3_right _ _ _ i (by omega),
              drop_append3_right _ _ _ i (by omega)]
            simp [List.append_assoc]
          · show l.len + m.len + nr.len = sz + d.length
            omega
          · simp only [size_ok, Bool.and_eq_true, beq_iff_eq]
            exact ⟨⟨⟨trivial, hl⟩, hm⟩, okr⟩
/-- A successful `remove` with an ordered in-bounds range deletes exactly
the bytes in `[s, e)`, shrinks the length by `e - s` (so both `assert!`s
pass), and preserves the size invariant; validity of the range guarantees
success. -/
theorem removed_len2 (s e A B : Nat) (hse : s ≤ e) :
    (A - (min e A - min s A)) + (B - (min (e - A) B - min (s - A) B)) =
    (A + B) - (min e (A + B) - min s (A + B)) := by
  omega

theorem removed_len3 (s e A B C : Nat) (hse : s ≤ e) :
    (A - (min e A - min s A)) + (B - (min (e - A) B - min (s - A) B)) +
      (C - (min (e - (A + B)) C - min (s - (A + B)) C)) =
    (A + B + C) - (min e (A + B + C) - min s (A + B + C)) := by
  have h1 := removed_len2 (s - A) (e - A) B C (by omega)
  rw [Nat.sub_sub, Nat.sub_sub] at h1
  have h2 := removed_len2 s e A (B + C) hse
  rw [← Nat.add_assoc] at h2
  rw [Nat.add_assoc, h1]
  exact h2

theorem remove_spec (N : Nat) (hN : 0 < N) (t : ChunkTree) :
    size_ok t = true → ∀ s e : Nat, s ≤ e → e ≤ t.len →
    ∃ t', remove N hN t (s, e) = some t' ∧
      t'.collect_bytes = t.collect_bytes.take s ++ t.collect_bytes.drop e ∧
      t'.len = t.len - (e - s) ∧ size_ok t' = true := by
  induction t with
  | Leaf ld =>
      intro _ s e hse he
      simp only [len] at he
      have hsl : s ≤ ld.length := le_trans hse he
      refine ⟨.Internal (from_slice N hN (ld.take s)) (from_slice N hN [])
        (from_slice N hN (ld.drop e)) (ld.length - (e - s)), ?_, ?_, ?_, ?_⟩
      · simp [remove, range_len, he, hsl]
      · rw [collect_bytes_Internal, collect_bytes_from_slice, collect_bytes_from_slice,
          collect_bytes_from_slice, collect_bytes_Leaf]
        simp
      · simp [len]
      · simp only [size_ok, Bool.and_eq_true, beq_iff_eq]
        refine ⟨⟨⟨?_, size_ok_from_slice N hN _⟩, size_ok_from_slice N hN _⟩,
          size_ok_from_slice N hN _⟩
        rw [len_from_slice, len_from_slice, len_from_slice]
        simp only [List.length_take, List.length_nil, List.length_drop]
        omega
  | Internal l m rr sz ihl ihm ihr =>
      intro hok s e hse he
      simp only [size_ok, Bool.and_eq_true, beq_iff_eq] at hok
      obtain ⟨⟨⟨hs, hl⟩, hm⟩, hr⟩ := hok
      simp only [len] at he
      have hlc := len_eq_collect_length l hl
      have hmc := len_eq_collect_length m hm
      have hrc := len_eq_collect_length rr hr
      obtain ⟨nl, el, cl, lenl, okl⟩ :=
        ihl hl (min s l.len) (min e l.len) (by omega) (by omega)
      obtain ⟨nm, em, cm, lenm, okm⟩ :=
        ihm hm (min (s - l.len) m.len) (min (e - l.len) m.len) (by omega) (by omega)
      obtain ⟨nr, er, cr, lenr, okr⟩ :=
        ihr hr (min (s - (l.len + m.len)) rr.len) (min (e - (l.len + m.len)) rr.len)
          (by omega) (by omega)
      have key := removed_len3 s e l.len m.len rr.len hse
      have hsum : nl.len + nm.len + nr.len = sz - (min e sz - min s sz) := by
        rw [lenl, lenm, lenr, hs]
        exact key
      refine ⟨.Internal nl nm nr (nl.len + nm.len + nr.len), ?_, ?_, ?_, ?_⟩
      · simp only [remove, range_cap, range_shift_left, range_len]
        rw [if_neg (by omega), if_neg (by omega), el]
        simp only [Option.bind_eq_bind, Option.some_bind]
        rw [em]
        simp only [Option.some_bind]
        rw [er]
        simp only [Option.some_bind]
        rw [if_pos ⟨by rw [hsum]; exact Nat.sub_le _ _, hsum.symm⟩]
      · rw [collect_bytes_Internal, collect_bytes_Internal, cl, cm, cr, hlc, hmc, hrc]
        simp only [take_min_length, drop_min_length]
        simp only [← Nat.sub_sub]
        rw [List.append_assoc]
        exact splice_append3 _ _ _ s e hse
      · show nl.len + nm.len + nr.len = sz - (e - s)
        rw [hsum, Nat.min_eq_left he, Nat.min_eq_left (le_trans hse he)]
      · simp only [size_ok, Bool.and_eq_true, beq_iff_eq]
        exact ⟨⟨⟨trivial, okl⟩, okm⟩, okr⟩
/-- With the size invariant, an out-of-range index makes every branch
guard of `insert` fail, so the final `else` panic (modelled `none`) fires. -/
theorem insert_none (N : Nat) (hN : 0 < N) (t : ChunkTree) (i : Nat) (d : List Nat)
    (hok : size_ok t = true) (hi : t.len < i) : insert N hN t i d = none := by
  cases t with
  | Leaf ld =>
      simp only [len] at hi
      simp only [insert]
      rw [if_neg (by omega)]
  | Internal l m rr sz =>
      simp only [size_ok, Bool.and_eq_true, beq_iff_eq] at hok
      obtain ⟨⟨⟨hs, _⟩, _⟩, _⟩ := hok
      simp only [len] at hi
      simp only [insert]
      rw [if_neg (by omega), if_neg (by omega), if_neg (by omega)]

/-- An out-of-bounds start or end makes `remove` fail on any node. -/
theorem remove_none (N : Nat) (hN : 0 < N) (t : ChunkTree) (r : Nat × Nat)
    (h : t.len < r.1 ∨ t.len < r.2) : remove N hN t r = none := by
  cases t with
  | Leaf ld =>
      simp only [len] at h
      simp only [remove]
      rw [if_neg (by omega)]
  | Internal l m rr sz =>
      simp only [len] at h
      simp only [remove]
      rw [if_pos (by omega)]

/-- Modelled from the spec: `remove` with the two redundant checks
collapsed into one — identical to `remove` except that the unreachable
`start > size` early-return clone (line 138) is omitted. -/
def remove_collapsed (N : Nat) (hN : 0 < N) : ChunkTree → Nat × Nat → Option ChunkTree
  | .Leaf data, r =>
      if r.1 ≤ data.length ∧ r.2 ≤ data.length then
        some (.Internal (from_slice N hN (data.take r.1))
          (from_slice N hN [])
          (from_slice N hN (data.drop r.2))
          (data.length - range_len r))
      else
        none
  | .Internal left mid right size, r =>
      if r.1 > size ∨ r.2 > size then
        none
      else do
        let new_left ← remove_collapsed N hN left (range_cap r left.len)
        let new_mid ← remove_collapsed N hN mid
          (range_cap (range_shift_left r left.len) mid.len)
        let new_right ← remove_collapsed N hN right
          (range_cap (range_shift_left r (left.len + mid.len)) right.len)
        let new_size := new_left.len + new_mid.len + new_right.len
        if size ≥ new_size ∧ size - range_len (range_cap r size) = new_size then
          some (.Internal new_left new_mid new_right new_size)
        else
          none

theorem remove_eq_collapsed (N : Nat) (hN : 0 < N) (t : ChunkTree) (r : Nat × Nat) :
    remove N hN t r = remove_collapsed N hN t r := by
  induction t generalizing r with
  | Leaf ld => rfl
  | Internal l m rr sz ihl ihm ihr =>
      simp only [remove, remove_collapsed]
      split
      · rfl
      · rename_i hcond
        rw [if_neg (by omega)]
        simp only [ihl, ihm, ihr]
theorem two_pos : 0 < 2 := Nat.succ_pos 1

theorem three_pos : 0 < 3 := Nat.succ_pos 2

/-- C1: for every byte sequence `S` and every chunk threshold `N > 0`,
building a tree with `from_slice(S, N)` and then calling `collect_bytes()`
yields exactly `S` (same bytes, same order). -/
theorem chunk_c1_from_slice_roundtrip (N : Nat) (S : List Nat) (hN : 0 < N) :
    collect_bytes (from_slice N hN S) = S :=
  collect_bytes_from_slice N hN S

theorem chunk_c1_witness :
    collect_bytes (from_slice 2 two_pos [10, 20, 30, 40, 50]) = [10, 20, 30, 40, 50] :=
  chunk_c1_from_slice_roundtrip 2 [10, 20, 30, 40, 50] two_pos

/-- C2: for a (size-invariant) tree holding `S`, any index `i ≤ len(S)`
and any bytes `T`, `insert(i, T)` returns a new tree whose
`collect_bytes()` equals `S[0:i] ++ T ++ S[i:]`. -/
theorem chunk_c2_insert_splices (N : Nat) (hN : 0 < N) (t : ChunkTree) (S : List Nat)
    (i : Nat) (T : List Nat) (hok : size_ok t = true) (hS : t.collect_bytes = S)
    (hi : i ≤ S.length) :
    (insert N hN t i T).map collect_bytes = some (S.take i ++ T ++ S.drop i) := by
  have hlen : i ≤ t.len := by
    rw [len_eq_collect_length t hok, hS]
    exact hi
  obtain ⟨t', he, hc, _, _⟩ := insert_spec N hN t hok i T hlen
  rw [he, Option.map_some', hc, hS]

theorem chunk_c2_witness :
    (insert 2 two_pos (.Leaf [1, 2, 3]) 1 [9]).map collect_bytes =
      some (([1, 2, 3] : List Nat).take 1 ++ [9] ++ ([1, 2, 3] : List Nat).drop 1) :=
  chunk_c2_insert_splices 2 two_pos (.Leaf [1, 2, 3]) [1, 2, 3] 1 [9] (by decide)
    (by decide) (by decide)

/-- C3: for a (size-invariant) tree holding `S` and a half-open range with
`s ≤ e ≤ len(S)`, `remove(s..e)` returns a new tree whose
`collect_bytes()` equals `S[0:s] ++ S[e:]`. -/
theorem chunk_c3_remove_splices (N : Nat) (hN : 0 < N) (t : ChunkTree) (S : List Nat)
    (s e : Nat) (hok : size_ok t = true) (hS : t.collect_bytes = S)
    (hse : s ≤ e) (he : e ≤ S.length) :
    (remove N hN t (s, e)).map collect_bytes = some (S.take s ++ S.drop e) := by
  have hlen : e ≤ t.len := by
    rw [len_eq_collect_length t hok, hS]
    exact he
  obtain ⟨t', heq, hc, _, _⟩ := remove_spec N hN t hok s e hse hlen
  rw [heq, Option.map_some', hc, hS]

theorem chunk_c3_witness :
    (remove 2 two_pos (.Leaf [1, 2, 3, 4]) (1, 3)).map collect_bytes =
      some (([1, 2, 3, 4] : List Nat).take 1 ++ ([1, 2, 3, 4] : List Nat).drop 3) :=
  chunk_c3_remove_splices 2 two_pos (.Leaf [1, 2, 3, 4]) [1, 2, 3, 4] 1 3 (by decide)
    (by decide) (by decide) (by decide)

/-- C4: every tree produced by `new`, `from_slice`, a successful `insert`,
or a successful `remove` with valid arguments satisfies the cached-size
invariant (`size = len(left) + len(mid) + len(right)` at every `Internal`
node), and consequently `len` equals the length of `collect_bytes`. -/
theorem chunk_c4_size_invariant :
    (∀ (N : Nat) (hN : 0 < N), size_ok (new N hN) = true) ∧
    (∀ (N : Nat) (hN : 0 < N) (S : List Nat), size_ok (from_slice N hN S) = true) ∧
    (∀ (N : Nat) (hN : 0 < N) (t : ChunkTree) (i : Nat) (d : List Nat) (t' : ChunkTree),
      size_ok t = true → insert N hN t i d = some t' → size_ok t' = true) ∧
    (∀ (N : Nat) (hN : 0 < N) (t : ChunkTree) (s e : Nat) (t' : ChunkTree),
      size_ok t = true → s ≤ e → e ≤ t.len → remove N hN t (s, e) = some t' →
      size_ok t' = true) ∧
    (∀ t : ChunkTree, size_ok t = true → t.len = t.collect_bytes.length) := by
  refine ⟨fun N hN => size_ok_from_slice N hN [], size_ok_from_slice, ?_, ?_,
    len_eq_collect_length⟩
  · intro N hN t i d t' hok heq
    by_cases hi : i ≤ t.len
    · obtain ⟨t'', he'', _, _, ok''⟩ := insert_spec N hN t hok i d hi
      rw [he''] at heq
      exact Option.some.inj heq ▸ ok''
    · rw [insert_none N hN t i d hok (by omega)] at heq
      cases heq
  · intro N hN t s e t' hok hse hle heq
    obtain ⟨t'', he'', _, _, ok''⟩ := remove_spec N hN t hok s e hse hle
    rw [he''] at heq
    exact Option.some.inj heq ▸ ok''

theorem chunk_c4_witness :
    size_ok (new 2 two_pos) = true ∧
    size_ok (from_slice 2 two_pos [1, 2, 3]) = true ∧
    size_ok (.Internal (from_slice 2 two_pos []) (from_slice 2 two_pos [9])
      (from_slice 2 two_pos [1]) 2) = true ∧
    size_ok (.Internal (from_slice 2 two_pos [1]) (from_slice 2 two_pos [])
      (from_slice 2 two_pos [3]) 2) = true ∧
    len (.Leaf [5, 6]) = (collect_bytes (.Leaf [5, 6])).length :=
  ⟨chunk_c4_size_invariant.1 2 two_pos,
   chunk_c4_size_invariant.2.1 2 two_pos [1, 2, 3],
   chunk_c4_size_invariant.2.2.1 2 two_pos (.Leaf [1]) 0 [9] _ (by decide) rfl,
   chunk_c4_size_invariant.2.2.2.1 2 two_pos (.Leaf [1, 2, 3]) 1 2 _ (by decide)
     (by decide) (by decide) rfl,
   chunk_c4_size_invariant.2.2.2.2 (.Leaf [5, 6]) (by decide)⟩

/-- C5: `insert(i, T)` on a (size-invariant) tree holding `S` fails for
every `i > len(S)`, succeeds for every `i ≤ len(S)` (so `i = len(S)` is a
valid append), and a failed insert leaves the original snapshot's content
unchanged (trees are immutable values in this embedding). -/
theorem chunk_c5_insert_bounds :
    (∀ (N : Nat) (hN : 0 < N) (t : ChunkTree) (i : Nat) (T : List Nat),
      size_ok t = true → t.len < i → insert N hN t i T = none) ∧
    (∀ (N : Nat) (hN : 0 < N) (t : ChunkTree) (i : Nat) (T : List Nat),
      size_ok t = true → i ≤ t.len → (insert N hN t i T).isSome = true) ∧
    (∀ (N : Nat) (hN : 0 < N) (t : ChunkTree) (i : Nat) (T S : List Nat),
      t.collect_bytes = S → insert N hN t i T = none → t.collect_bytes = S) := by
  refine ⟨insert_none, ?_, fun _ _ _ _ _ _ h _ => h⟩
  intro N hN t i T hok hi
  obtain ⟨t', he, _, _, _⟩ := insert_spec N hN t hok i T hi
  rw [he]
  rfl

theorem chunk_c5_witness :
    insert 2 two_pos (.Leaf [1, 2]) 3 [9] = none ∧
    (insert 2 two_pos (.Leaf [1, 2]) 2 [9]).isSome = true ∧
    collect_bytes (.Leaf [1, 2]) = [1, 2] :=
  ⟨chunk_c5_insert_bounds.1 2 two_pos (.Leaf [1, 2]) 3 [9] (by decide) (by decide),
   chunk_c5_insert_bounds.2.1 2 two_pos (.Leaf [1, 2]) 2 [9] (by decide) (by decide),
   chunk_c5_insert_bounds.2.2 2 two_pos (.Leaf [1, 2]) 3 [9] [1, 2] (by decide)
     (chunk_c5_insert_bounds.1 2 two_pos (.Leaf [1, 2]) 3 [9] (by decide) (by decide))⟩

/-- C6: `remove(r)` fails whenever `r.start > len(S)` or `r.end > len(S)`,
succeeds whenever `r.start ≤ r.end ≤ len(S)` on a size-invariant tree, and
a failed remove leaves the original snapshot's content unchanged (trees
are immutable values in this embedding). -/
theorem chunk_c6_remove_bounds :
    (∀ (N : Nat) (hN : 0 < N) (t : ChunkTree) (r : Nat × Nat),
      t.len < r.1 ∨ t.len < r.2 → remove N hN t r = none) ∧
    (∀ (N : Nat) (hN : 0 < N) (t : ChunkTree) (s e : Nat),
      size_ok t = true → s ≤ e → e ≤ t.len → (remove N hN t (s, e)).isSome = true) ∧
    (∀ (N : Nat) (hN : 0 < N) (t : ChunkTree) (r : Nat × Nat) (S : List Nat),
      t.collect_bytes = S → remove N hN t r = none → t.collect_bytes = S) := by
  refine ⟨fun N hN t r h => remove_none N hN t r h, ?_, fun _ _ _ _ _ h _ => h⟩
  intro N hN t s e hok hse hle
  obtain ⟨t', he, _, _, _⟩ := remove_spec N hN t hok s e hse hle
  rw [he]
  rfl

theorem chunk_c6_witness :
    remove 2 two_pos (.Leaf [1, 2]) (1, 3) = none ∧
    (remove 2 two_pos (.Leaf [1, 2]) (1, 2)).isSome = true ∧
    collect_bytes (.Leaf [1, 2]) = [1, 2] :=
  ⟨chunk_c6_remove_bounds.1 2 two_pos (.Leaf [1, 2]) (1, 3) (by decide),
   chunk_c6_remove_bounds.2.1 2 two_pos (.Leaf [1, 2]) 1 2 (by decide) (by decide)
     (by decide),
   chunk_c6_remove_bounds.2.2 2 two_pos (.Leaf [1, 2]) (1, 3) [1, 2] (by decide)
     (chunk_c6_remove_bounds.1 2 two_pos (.Leaf [1, 2]) (1, 3) (by decide))⟩

/-- C7: for `len(S) > N`, `from_slice` returns an `Internal` node whose
`mid` is an empty `Leaf`, whose `left`/`right` subtrees are built from
`S[0:⌊len/2⌋]` / `S[⌊len/2⌋:]`, and whose cached size is `len(S)`; and
every `Leaf` of a `from_slice` tree holds at most `N` bytes. -/
theorem chunk_c7_from_slice_shape :
    (∀ (N : Nat) (hN : 0 < N) (S : List Nat), N < S.length →
      from_slice N hN S = .Internal (from_slice N hN (S.take (S.length / 2)))
        (.Leaf []) (from_slice N hN (S.drop (S.length / 2))) S.length) ∧
    (∀ (N : Nat) (hN : 0 < N) (S : List Nat), leaves_le N (from_slice N hN S) = true) := by
  refine ⟨?_, leaves_le_from_slice⟩
  intro N hN S h
  rw [from_slice]
  rw [dif_neg (by omega)]

theorem chunk_c7_witness :
    from_slice 2 two_pos [1, 2, 3] = .Internal (from_slice 2 two_pos [1])
      (.Leaf []) (from_slice 2 two_pos [2, 3]) 3 ∧
    leaves_le 2 (from_slice 2 two_pos [1, 2, 3]) = true :=
  ⟨chunk_c7_from_slice_shape.1 2 two_pos [1, 2, 3] (by decide),
   chunk_c7_from_slice_shape.2 2 two_pos [1, 2, 3]⟩

/-- C8: on an `Internal` node `insert` recurses into exactly one child,
chosen by successive `≤` tests (left when `i ≤ left_size`, else mid when
`i ≤ left_size + mid_size`, else right), so ties at a boundary go to the
earlier child, and the two children not descended into appear unchanged
(the same shared subtree values) in the resulting tree. -/
theorem chunk_c8_insert_descends :
    (∀ (N : Nat) (hN : 0 < N) (l m r : ChunkTree) (sz i : Nat) (d : List Nat),
      i ≤ l.len →
      insert N hN (.Internal l m r sz) i d = (insert N hN l i d).map fun nl =>
        .Internal nl m r (nl.len + m.len + r.len)) ∧
    (∀ (N : Nat) (hN : 0 < N) (l m r : ChunkTree) (sz i : Nat) (d : List Nat),
      l.len < i → i ≤ l.len + m.len →
      insert N hN (.Internal l m r sz) i d =
        (insert N hN m (i - l.len) d).map fun nm =>
          .Internal l nm r (l.len + nm.len + r.len)) ∧
    (∀ (N : Nat) (hN : 0 < N) (l m r : ChunkTree) (sz i : Nat) (d : List Nat),
      l.len + m.len < i → i ≤ l.len + m.len + r.len →
      insert N hN (.Internal l m r sz) i d =
        (insert N hN r (i - l.len - m.len) d).map fun nr =>
          .Internal l m nr (l.len + m.len + nr.len)) := by
  refine ⟨?_, ?_, ?_⟩
  · intro N hN l m r sz i d h1
    simp only [insert]
    rw [if_pos h1]
  · intro N hN l m r sz i d h1 h2
    simp only [insert]
    rw [if_neg (by omega), if_pos h2]
  · intro N hN l m r sz i d h1 h2
    simp only [insert]
    rw [if_neg (by omega), if_neg (by omega), if_pos h2]

theorem chunk_c8_witness :
    (insert 2 two_pos (.Internal (.Leaf [1, 2]) (.Leaf [3]) (.Leaf [4]) 4) 2 [9] =
      (insert 2 two_pos (.Leaf [1, 2]) 2 [9]).map fun nl =>
        .Internal nl (.Leaf [3]) (.Leaf [4]) (nl.len + (ChunkTree.Leaf [3]).len +
          (ChunkTree.Leaf [4]).len)) ∧
    (insert 2 two_pos (.Internal (.Leaf [1, 2]) (.Leaf [3]) (.Leaf [4]) 4) 3 [9] =
      (insert 2 two_pos (.Leaf [3]) 1 [9]).map fun nm =>
        .Internal (.Leaf [1, 2]) nm (.Leaf [4]) ((ChunkTree.Leaf [1, 2]).len + nm.len +
          (ChunkTree.Leaf [4]).len)) ∧
    (insert 2 two_pos (.Internal (.Leaf [1, 2]) (.Leaf [3]) (.Leaf [4]) 4) 4 [9] =
      (insert 2 two_pos (.Leaf [4]) 1 [9]).map fun nr =>
        .Internal (.Leaf [1, 2]) (.Leaf [3]) nr ((ChunkTree.Leaf [1, 2]).len +
          (ChunkTree.Leaf [3]).len + nr.len)) :=
  ⟨chunk_c8_insert_descends.1 2 two_pos (.Leaf [1, 2]) (.Leaf [3]) (.Leaf [4]) 4 2 [9]
     (by decide),
   chunk_c8_insert_descends.2.1 2 two_pos (.Leaf [1, 2]) (.Leaf [3]) (.Leaf [4]) 4 3 [9]
     (by decide) (by decide),
   chunk_c8_insert_descends.2.2 2 two_pos (.Leaf [1, 2]) (.Leaf [3]) (.Leaf [4]) 4 4 [9]
     (by decide) (by decide)⟩

/-- C9: the `start > size` early-return branch of `remove` on an
`Internal` node is unreachable — `remove` is extensionally equal to
`remove_collapsed`, which omits it — and with the size invariant and a
valid ordered range `remove` succeeds with both internal `assert!`s
holding: the new size never exceeds the old, and the number of bytes
removed equals the length of the range clipped to `[0, original size]`. -/
theorem chunk_c9_remove_internal_checks :
    (∀ (N : Nat) (hN : 0 < N) (t : ChunkTree) (r : Nat × Nat),
      remove N hN t r = remove_collapsed N hN t r) ∧
    (∀ (N : Nat) (hN : 0 < N) (t : ChunkTree) (s e : Nat),
      size_ok t = true → s ≤ e → e ≤ t.len →
      ∃ t', remove N hN t (s, e) = some t' ∧ t'.len ≤ t.len ∧
        t.len - t'.len = range_len (range_cap (s, e) t.len)) := by
  refine ⟨remove_eq_collapsed, ?_⟩
  intro N hN t s e hok hse he
  obtain ⟨t', heq, _, hlen, _⟩ := remove_spec N hN t hok s e hse he
  refine ⟨t', heq, ?_, ?_⟩
  · rw [hlen]
    exact Nat.sub_le _ _
  · rw [hlen]
    simp only [range_cap, range_len]
    omega

theorem chunk_c9_witness :
    (remove 2 two_pos (.Leaf [1, 2, 3]) (0, 2) =
      remove_collapsed 2 two_pos (.Leaf [1, 2, 3]) (0, 2)) ∧
    (∃ t', remove 2 two_pos (.Leaf [1, 2, 3]) (0, 2) = some t' ∧
      t'.len ≤ (ChunkTree.Leaf [1, 2, 3]).len ∧
      (ChunkTree.Leaf [1, 2, 3]).len - t'.len =
        range_len (range_cap (0, 2) (ChunkTree.Leaf [1, 2, 3]).len)) :=
  ⟨chunk_c9_remove_internal_checks.1 2 two_pos (.Leaf [1, 2, 3]) (0, 2),
   chunk_c9_remove_internal_checks.2 2 two_pos (.Leaf [1, 2, 3]) 0 2 (by decide)
     (by decide) (by decide)⟩

/-- C10: `remove` does not reject an inverted range: on a single `Leaf`
holding `S` with `e < s ≤ len(S)`, `remove (s..e)` succeeds and collects
`S[0:s] ++ S[e:]` (the bytes in `[e, s)` appear twice), while `len` still
reports `len(S)`, so `len` and the collected content length disagree. -/
theorem chunk_c10_inverted_range (N : Nat) (hN : 0 < N) (S : List Nat) (s e : Nat)
    (hes : e < s) (hsl : s ≤ S.length) :
    ∃ t', remove N hN (.Leaf S) (s, e) = some t' ∧
      t'.collect_bytes = S.take s ++ S.drop e ∧
      t'.len = S.length ∧ t'.len < t'.collect_bytes.length := by
  have hel : e ≤ S.length := le_trans (le_of_lt hes) hsl
  refine ⟨.Internal (from_slice N hN (S.take s)) (from_slice N hN [])
    (from_slice N hN (S.drop e)) (S.length - (e - s)), ?_, ?_, ?_, ?_⟩
  · simp [remove, range_len, hsl, hel]
  · rw [collect_bytes_Internal, collect_bytes_from_slice, collect_bytes_from_slice,
      collect_bytes_from_slice]
    simp
  · show S.length - (e - s) = S.length
    omega
  · rw [collect_bytes_Internal, collect_bytes_from_slice, collect_bytes_from_slice,
      collect_bytes_from_slice]
    show S.length - (e - s) < _
    simp only [List.length_append, List.length_take, List.length_nil, List.length_drop]
    omega

theorem chunk_c10_witness :
    ∃ t', remove 3 three_pos (.Leaf [1, 2, 3]) (2, 1) = some t' ∧
      t'.collect_bytes = ([1, 2, 3] : List Nat).take 2 ++ ([1, 2, 3] : List Nat).drop 1 ∧
      t'.len = ([1, 2, 3] : List Nat).length ∧ t'.len < t'.collect_bytes.length :=
  chunk_c10_inverted_range 3 three_pos [1, 2, 3] 2 1 (by decide) (by decide)

end ChunkTree
